import Mathlib

/-!
Shallow embedding of the manus-replica backend core:
the sandbox session manager (`E2BService`), the agent loop
(`AgentService.runThoughtCycle` / `processMessage`), the tool dispatcher
(`AgentService.executeToolCall`), the streamed tool-call accumulator,
and the history sanitizer (`AgentService.sanitizeConversationHistory`).

External effects (the OpenAI stream, the e2b sandbox, `JSON.parse`,
`JSON.stringify`) are modelled as explicit parameters or outcome
schedules; everything written by the repository itself is transcribed
directly from the TypeScript source.
-/

namespace Manus

/-- Character-list infix test, modelling JS `String.prototype.includes`
(used by the source as `error.message.includes('timed out')`). -/
def listInfixOf (p : List Char) : List Char → Bool
  | [] => p.isPrefixOf ([] : List Char)
  | c :: t => p.isPrefixOf (c :: t) || listInfixOf p t

/-- Model of `error.message && error.message.includes('timed out')`
(`E2BService.isTimeoutError`). -/
def containsTimedOut (s : String) : Bool :=
  listInfixOf "timed out".data s.data

/-! ## Sandbox session manager (`E2BService`) -/

/-- A remote sandbox handle; only its `id` is observable to the service. -/
structure Sandbox where
  id : String
deriving DecidableEq

/-- The mutable fields of `E2BService`: `this.sandbox` and `this.sessionId`. -/
structure E2BState where
  sandbox : Option Sandbox
  sessionId : Option String
deriving DecidableEq

/-- JS truthiness of a possibly-absent string (`if (this.sessionId)`). -/
def truthyOpt : Option String → Bool
  | none => false
  | some s => !s.isEmpty

/-- Embedding of `E2BService.createSession`.  The remote
`Sandbox.create` call is an external outcome (`createOutcome`); on
success the service stores the sandbox and its id and returns the id,
on failure it logs and rethrows (modelled as `Except.error`), leaving
the state unchanged. -/
def createSession (createOutcome : Except String Sandbox) (_st : E2BState) :
    Except String (E2BState × String) :=
  match createOutcome with
  | .ok sb => .ok ({ sandbox := some sb, sessionId := some sb.id }, sb.id)
  | .error e => .error e

/-- Embedding of `E2BService.resumeSession`.  `reconnectOutcome sid`
is the external result of `Sandbox.reconnect(sid)`.  If no truthy
session id is held the method returns `null` (modelled `none`) with no
side effect; if reconnection succeeds the sandbox is replaced and the
old id returned; if reconnection fails the method falls back to
`createSession` (whose own failure is rethrown). -/
def resumeSession (reconnectOutcome : String → Except String Sandbox)
    (createOutcome : Except String Sandbox) (st : E2BState) :
    Except String (E2BState × Option String) :=
  match st.sessionId with
  | some sid =>
    if sid.isEmpty then .ok (st, none)
    else
      match reconnectOutcome sid with
      | .ok sb => .ok ({ st with sandbox := some sb }, some sid)
      | .error _ =>
        match createSession createOutcome st with
        | .ok (st', id') => .ok (st', some id')
        | .error e => .error e
  | none => .ok (st, none)

/-- Result shape of a finished sandbox process. -/
structure ShellRes where
  stdout : String
  stderr : String
  exitCode : Int
deriving DecidableEq

/-- Embedding of `E2BService.executeShellCommand`'s retry structure.
`attempts k` is the external outcome of the `k`-th attempt of the try
block (the `No active session` throw, process start and wait are all
either repository state or remote effects visible only through this
outcome).  The catch block is transcribed directly: a timeout error
triggers `handleTimeoutError` (resume) and a recursive re-invocation,
any other error is rethrown.  The recursion in the source has no
bound, so the embedding carries fuel; `none` means the call has not
returned within `fuel` attempts.  The returned `Nat` counts the
attempts performed. -/
def executeShellCommandModel (attempts : Nat → Except String ShellRes) :
    Nat → Nat → Option (Nat × Except String ShellRes)
  | 0, _ => none
  | fuel + 1, k =>
    match attempts k with
    | .ok r => some (k + 1, .ok r)
    | .error m =>
      if containsTimedOut m then
        executeShellCommandModel attempts fuel (k + 1)
      else
        some (k + 1, .error m)

/-! ## Path normalization (`E2BService.performFileOperation`) -/

/-- Replace the first occurrence of `pat` in a character list by `rep`;
this is JS `String.prototype.replace` with a string pattern. -/
def listReplaceFirst (pat rep : List Char) : List Char → List Char
  | [] => if pat.isPrefixOf ([] : List Char) then rep else []
  | c :: t =>
    if pat.isPrefixOf (c :: t) then rep ++ (c :: t).drop pat.length
    else c :: listReplaceFirst pat rep t

/-- String wrapper for `listReplaceFirst` (JS `path.replace(pat, rep)`). -/
def replaceFirst (s pat rep : String) : String :=
  ⟨listReplaceFirst pat.data rep.data s.data⟩

/-- JS `s.startsWith(p)`. -/
def strStartsWith (p s : String) : Bool :=
  p.data.isPrefixOf s.data

/-- Embedding of the `normalizePath` closure inside
`E2BService.performFileOperation`, transcribed line by line. -/
def normalizePath (path : String) : String :=
  if strStartsWith "./" path then replaceFirst path "./" "/home/user/"
  else if strStartsWith "../" path then replaceFirst path "../" "/home/user/"
  else if !(strStartsWith "/" path) then "/home/user/" ++ path
  else path

/-- The rewrite policy as the spec words it: a leading `./` prefix is
replaced by `/home/user/`, a leading `../` prefix is replaced by
`/home/user/`, any other path not starting with `/` is prefixed with
`/home/user/`, and an absolute path passes through unchanged. -/
def normalizePathSpec (path : String) : String :=
  if strStartsWith "./" path then "/home/user/" ++ (⟨path.data.drop 2⟩ : String)
  else if strStartsWith "../" path then "/home/user/" ++ (⟨path.data.drop 3⟩ : String)
  else if !(strStartsWith "/" path) then "/home/user/" ++ path
  else path

/-! ## Helper lemmas -/

theorem listReplaceFirst_of_isPrefixOf (pat rep s : List Char)
    (h : pat.isPrefixOf s = true) :
    listReplaceFirst pat rep s = rep ++ s.drop pat.length := by
  cases s with
  | nil =>
    simp only [listReplaceFirst, h, if_true]
    have : pat = [] := by
      cases pat with
      | nil => rfl
      | cons a l => simp [List.isPrefixOf] at h
    subst this
    simp
  | cons c t =>
    simp only [listReplaceFirst, h, if_true]

theorem string_append_data (a b : List Char) :
    (⟨a⟩ : String) ++ (⟨b⟩ : String) = ⟨a ++ b⟩ := rfl

theorem executeShellCommandModel_allTimeout
    (m : String) (hm : containsTimedOut m = true) :
    ∀ fuel k, executeShellCommandModel (fun _ => .error m) fuel k = none := by
  intro fuel
  induction fuel with
  | zero => intro k; rfl
  | succ f ih =>
    intro k
    simp only [executeShellCommandModel, hm, if_true]
    exact ih (k + 1)

/-! ## Streamed tool-call accumulation (`runThoughtCycle`, stream loop) -/

/-- One tool-call fragment of a streamed delta
(`delta.tool_calls[..]`): a stream index, and optionally a call id, a
function name and an argument-string fragment. -/
structure TCDelta where
  index : Nat
  id : Option String
  fname : Option String
  args : Option String
deriving DecidableEq

/-- One streamed chunk's delta: optional content and tool-call fragments. -/
structure Delta where
  content : Option String
  tool_calls : List TCDelta
deriving DecidableEq

/-- An accumulated tool call (`toolCalls[index]` in the source): id from
the first fragment bearing the index, name from that fragment's
`function?.name || ''`, arguments concatenated across fragments. -/
structure AccTC where
  id : Option String
  name : String
  args : String
deriving DecidableEq

/-- Lookup of the entry at stream index `i` (JS `toolCalls[index]`). -/
def lookupIdx (i : Nat) : List (Nat × AccTC) → Option AccTC
  | [] => none
  | (j, w) :: rest => if i = j then some w else lookupIdx i rest

/-- Insert a fresh entry keyed by stream index, keeping keys in
ascending order: a JS array is an index-keyed map iterated in ascending
index order, regardless of assignment order. -/
def insertSorted (i : Nat) (v : AccTC) : List (Nat × AccTC) → List (Nat × AccTC)
  | [] => [(i, v)]
  | (j, w) :: rest =>
    if i < j then (i, v) :: (j, w) :: rest else (j, w) :: insertSorted i v rest

/-- Append an argument fragment to the entry at stream index `i`
(`toolCalls[toolCall.index].function.arguments += ...`). -/
def appendArgsAt (i : Nat) (s : String) : List (Nat × AccTC) → List (Nat × AccTC)
  | [] => []
  | (j, w) :: rest =>
    if j = i then (j, { w with args := w.args ++ s }) :: appendArgsAt i s rest
    else (j, w) :: appendArgsAt i s rest

/-- One iteration of the fragment loop (source lines 106-118): create
the entry on first sight of an index (id and name captured there from
the fragment, arguments started empty), then append the truthy
argument fragment if present. -/
def accStep (l : List (Nat × AccTC)) (d : TCDelta) : List (Nat × AccTC) :=
  let l1 := if (lookupIdx d.index l).isNone then
      insertSorted d.index ⟨d.id, d.fname.getD "", ""⟩ l
    else l
  match d.args with
  | some s => if s.isEmpty then l1 else appendArgsAt d.index s l1
  | none => l1

/-- Accumulate a whole arrival-ordered sequence of fragments. -/
def accumulate (ds : List TCDelta) : List (Nat × AccTC) :=
  ds.foldl accStep []

/-- Concatenation of a list of strings in order. -/
def strsConcat : List String → String
  | [] => ""
  | s :: rest => s ++ strsConcat rest

/-- The argument fragments bearing index `i`, concatenated in arrival
order (the wording of the reconstruction property). -/
def argsConcat (i : Nat) (ds : List TCDelta) : String :=
  strsConcat (ds.filterMap fun d => if d.index = i then some (d.args.getD "") else none)

/-- First fragment bearing index `i`. -/
def firstWithIndex (i : Nat) (ds : List TCDelta) : Option TCDelta :=
  ds.find? fun d => d.index == i

/-! ### Accumulator lemmas -/

theorem lookupIdx_insertSorted (i j : Nat) (v : AccTC) (l : List (Nat × AccTC))
    (h : lookupIdx j l = none) :
    lookupIdx i (insertSorted j v l) = if i = j then some v else lookupIdx i l := by
  induction l with
  | nil => by_cases hij : i = j <;> simp [insertSorted, lookupIdx, hij]
  | cons e rest ih =>
    obtain ⟨k, w⟩ := e
    have hjk : ¬(j = k) := by
      intro hc
      simp [lookupIdx, hc] at h
    have hrest : lookupIdx j rest = none := by
      simpa [lookupIdx, hjk] using h
    by_cases hlt : j < k
    · by_cases hij : i = j <;> simp [insertSorted, hlt, lookupIdx, hij]
    · by_cases hik : i = k
      · subst hik
        have hij : ¬(i = j) := fun hc => hjk hc.symm
        simp [insertSorted, hlt, lookupIdx, hij]
      · simp [insertSorted, hlt, lookupIdx, hik, ih hrest]

theorem lookupIdx_appendArgsAt (i j : Nat) (s : String) (l : List (Nat × AccTC)) :
    lookupIdx i (appendArgsAt j s l) =
      (lookupIdx i l).map fun w => if i = j then { w with args := w.args ++ s } else w := by
  induction l with
  | nil => simp [appendArgsAt, lookupIdx]
  | cons e rest ih =>
    obtain ⟨k, w⟩ := e
    by_cases hkj : k = j
    · subst hkj
      by_cases hik : i = k
      · subst hik
        simp [appendArgsAt, lookupIdx]
      · simp [appendArgsAt, lookupIdx, hik, ih]
    · by_cases hik : i = k
      · subst hik
        have hij : ¬(i = j) := hkj
        simp [appendArgsAt, lookupIdx, hkj, hij]
      · simp [appendArgsAt, lookupIdx, hkj, hik, ih]

theorem lookupIdx_accStep (i : Nat) (l : List (Nat × AccTC)) (d : TCDelta) :
    lookupIdx i (accStep l d) =
      match lookupIdx i l with
      | some a =>
        some (if d.index = i then { a with args := a.args ++ d.args.getD "" } else a)
      | none =>
        if d.index = i then some ⟨d.id, d.fname.getD "", d.args.getD ""⟩ else none := by
  simp only [accStep]
  cases hguard : lookupIdx d.index l with
  | none =>
    simp only [hguard, Option.isNone_none, if_true]
    cases hargs : d.args with
    | none =>
      rw [lookupIdx_insertSorted i d.index _ l hguard]
      cases hli : lookupIdx i l with
      | none =>
        by_cases hdi : d.index = i
        · simp [hdi, hli, Option.getD]
        · have hid : ¬(i = d.index) := fun hc => hdi hc.symm
          simp [hdi, hid, hli]
      | some a =>
        have hdi : ¬(d.index = i) := by
          intro hc
          rw [hc, hli] at hguard
          exact Option.noConfusion hguard
        have hid : ¬(i = d.index) := fun hc => hdi hc.symm
        simp [hdi, hid, hli]
    | some s =>
      by_cases hemp : s.isEmpty
      · have hs : s = "" := (String.isEmpty_iff s).mp hemp
        subst hs
        simp only [hemp, if_true]
        rw [lookupIdx_insertSorted i d.index _ l hguard]
        cases hli : lookupIdx i l with
        | none =>
          by_cases hdi : d.index = i
          · simp [hdi, hli, Option.getD]
          · have hid : ¬(i = d.index) := fun hc => hdi hc.symm
            simp [hdi, hid, hli]
        | some a =>
          have hdi : ¬(d.index = i) := by
            intro hc
            rw [hc, hli] at hguard
            exact Option.noConfusion hguard
          have hid : ¬(i = d.index) := fun hc => hdi hc.symm
          simp [hdi, hid, hli, String.append_empty]
      · simp only [hemp, Bool.false_eq_true, if_false]
        rw [lookupIdx_appendArgsAt i d.index s _]
        rw [lookupIdx_insertSorted i d.index _ l hguard]
        cases hli : lookupIdx i l with
        | none =>
          by_cases hdi : d.index = i
          · subst hdi
            simp [hli, Option.getD, String.empty_append]
          · have hid : ¬(i = d.index) := fun hc => hdi hc.symm
            simp [hdi, hid, hli]
        | some a =>
          have hdi : ¬(d.index = i) := by
            intro hc
            rw [hc, hli] at hguard
            exact Option.noConfusion hguard
          have hid : ¬(i = d.index) := fun hc => hdi hc.symm
          simp [hdi, hid, hli]
  | some a0 =>
    simp only [hguard, Option.isNone_some, Bool.false_eq_true, if_false]
    have hnotnone : lookupIdx i l = none → ¬(d.index = i) := by
      intro hli hc
      rw [hc, hli] at hguard
      exact Option.noConfusion hguard
    cases hargs : d.args with
    | none =>
      cases hli : lookupIdx i l with
      | none => simp [hli, hnotnone hli]
      | some a =>
        by_cases hdi : d.index = i
        · simp [hli, hdi, Option.getD, String.append_empty]
        · simp [hli, hdi]
    | some s =>
      by_cases hemp : s.isEmpty
      · have hs : s = "" := (String.isEmpty_iff s).mp hemp
        subst hs
        simp only [hemp, if_true]
        cases hli : lookupIdx i l with
        | none => simp [hli, hnotnone hli]
        | some a =>
          by_cases hdi : d.index = i
          · simp [hli, hdi, Option.getD, String.append_empty]
          · simp [hli, hdi]
      · simp only [hemp, Bool.false_eq_true, if_false]
        rw [lookupIdx_appendArgsAt i d.index s l]
        cases hli : lookupIdx i l with
        | none => simp [hli, hnotnone hli]
        | some a =>
          by_cases hdi : d.index = i
          · subst hdi
            simp [hli, Option.getD]
          · have hid : ¬(i = d.index) := fun hc => hdi hc.symm
            simp [hli, hdi, hid]

theorem lookupIdx_foldl_accStep (ds : List TCDelta) :
    ∀ (l : List (Nat × AccTC)) (i : Nat),
      lookupIdx i (ds.foldl accStep l) =
        match lookupIdx i l with
        | some a => some { a with args := a.args ++ argsConcat i ds }
        | none =>
          match firstWithIndex i ds with
          | none => none
          | some d => some ⟨d.id, d.fname.getD "", argsConcat i ds⟩ := by
  induction ds with
  | nil =>
    intro l i
    simp only [List.foldl_nil, argsConcat, List.filterMap_nil, strsConcat, firstWithIndex,
      List.find?]
    cases hli : lookupIdx i l with
    | none => simp
    | some a => cases a; simp [String.append_empty]
  | cons d ds ih =>
    intro l i
    simp only [List.foldl_cons]
    rw [ih (accStep l d) i, lookupIdx_accStep i l d]
    by_cases hdi : d.index = i
    · have hfirst : firstWithIndex i (d :: ds) = some d := by
        simp [firstWithIndex, List.find?, hdi]
      have hconcat : argsConcat i (d :: ds) = d.args.getD "" ++ argsConcat i ds := by
        simp [argsConcat, List.filterMap_cons, hdi, strsConcat]
      cases hli : lookupIdx i l with
      | some a =>
        simp only [hdi, if_true, hfirst, hconcat]
        cases a
        simp [String.append_assoc]
      | none => simp only [hdi, if_true, hfirst, hconcat]
    · have hb : (d.index == i) = false := by simp [hdi]
      have hfirst : firstWithIndex i (d :: ds) = firstWithIndex i ds := by
        simp [firstWithIndex, List.find?, hb]
      have hconcat : argsConcat i (d :: ds) = argsConcat i ds := by
        simp [argsConcat, List.filterMap_cons, hdi]
      cases hli : lookupIdx i l with
      | some a => simp [hdi, hfirst, hconcat]
      | none => simp [hdi, hfirst, hconcat]

/-- C7: the streamed tool-call accumulator reconstructs, for every
stream index, a call whose id and name come from the first fragment
bearing that index and whose argument string is the concatenation, in
arrival order, of the argument fragments sharing that index (so the
reconstructed arguments are exactly determined by fragment arrival
order, and permuting the fragments of an index permutes the
concatenation accordingly); an index with no fragment yields no call. -/
theorem C7_accumulate_reconstruction (ds : List TCDelta) (i : Nat) :
    (match firstWithIndex i ds with
      | none => lookupIdx i (accumulate ds) = none
      | some d =>
        lookupIdx i (accumulate ds) =
          some ⟨d.id, d.fname.getD "", argsConcat i ds⟩) := by
  have h := lookupIdx_foldl_accStep ds [] i
  simp only [lookupIdx] at h
  cases hf : firstWithIndex i ds with
  | none =>
    rw [hf] at h
    simpa [accumulate] using h
  | some d =>
    rw [hf] at h
    simpa [accumulate] using h

/-! ## Tool dispatch (`AgentService.executeToolCall`) -/

/-- Parsed tool-call arguments (the result of `JSON.parse`); only the
fields the agent code itself reads are modelled. -/
structure Args where
  reason : Option String := none
  summary : Option String := none
deriving DecidableEq

/-- Status carried by a `tool_call` StreamEvent. -/
inductive TStatus
  | running
  | completed
  | errored
deriving DecidableEq

/-- StreamEvents pushed through the stream callback.  The `tool_call`
events also carry a fresh uuid and the parsed input in the source;
neither is read by any claim, so the embedding keeps the tool name and
status. -/
inductive Event
  | thinking (content : String)
  | toolCall (name : String) (status : TStatus)
  | message (content : String)
  | error (content : String)
deriving DecidableEq

/-- Values returned normally by `executeToolCall`: a sandbox result, the
pure terminate result, or the captured error envelope built in the
catch block. -/
inductive ToolResultV
  | value (tag : String)
  | terminated (reason : Option String) (summary : String)
  | errRes (msg : String) (isTimeout : Bool)
deriving DecidableEq

/-- JS `o || d` on an optional string (empty string is falsy). -/
def orTruthy (o : Option String) (d : String) : String :=
  match o with
  | some s => if s.isEmpty then d else s
  | none => d

/-- The `switch (toolCall.function.name)` of `executeToolCall`
(lines 316-335).  `dispatch name args` is the external outcome of the
corresponding `E2BService` call (`Except.error` = it threw); the
`terminate` arm and the default throw are repository code. -/
def toolSwitch (dispatch : String → Args → Except String String)
    (name : String) (args : Args) : Except String ToolResultV :=
  if name = "shell_command" then (dispatch name args).map .value
  else if name = "file_operation" then (dispatch name args).map .value
  else if name = "code_execution" then (dispatch name args).map .value
  else if name = "terminate" then
    .ok (.terminated args.reason (orTruthy args.summary "Task completed"))
  else .error ("Unknown tool: " ++ name)

/-- Embedding of `AgentService.executeToolCall` (lines 287-377).
`parse` models `JSON.parse` on the accumulated argument string;
`JSON.parse` is deterministic, so the parse in the try block (line 302)
and the re-parse in the catch block (line 370) observe the same
outcome.  When the arguments do not parse, the try block throws, the
catch block throws again while building the error event, so no event is
emitted and the error propagates out (`Except.error`).  When arguments
parse and the dispatch throws, the catch block captures it: the timeout
test rewrites the message, a `tool_call` error event is emitted, and
the error envelope is returned normally. -/
def executeToolCall (parse : String → Option Args)
    (dispatch : String → Args → Except String String) (tc : AccTC) :
    List Event × Except String ToolResultV :=
  match parse tc.args with
  | none => ([], .error "JSON.parse")
  | some args =>
    match toolSwitch dispatch tc.name args with
    | .ok r => ([.toolCall tc.name .running, .toolCall tc.name .completed], .ok r)
    | .error e =>
      let isTimeout := containsTimedOut e
      let msg := if isTimeout then
          "Operation timed out. The virtual machine session has been recreated and the operation will be retried."
        else e
      ([.toolCall tc.name .running, .toolCall tc.name .errored],
        .ok (.errRes msg isTimeout))

/-! ## Conversation history and the thought cycle (`runThoughtCycle`) -/

/-- Conversation history messages, as pushed by `AgentService`.  An
assistant message carries `tool_calls` only when the round accumulated
at least one call; a tool message carries the originating call id
(`tool_call_id`), which the stream may have left absent. -/
inductive HistMsg
  | user (content : String)
  | assistant (content : Option String) (tool_calls : Option (List AccTC))
  | tool (tool_call_id : Option String) (content : String)
deriving DecidableEq

/-- Rendering of `JSON.stringify(result)` for tool-result messages; the
claims only compare whole messages, so a tagged rendering suffices. -/
def stringifyRes : ToolResultV → String
  | .value t => "value:" ++ t
  | .terminated r s => "terminated:" ++ r.getD "" ++ ":" ++ s
  | .errRes m _ => "error:" ++ m

/-- Output of one round\'s tool loop (lines 147-170): the events
streamed, the local `toolResults` array, whether `terminate` was seen,
and whether an `executeToolCall` threw (aborting the whole cycle before
the results are pushed). -/
structure ToolLoopOut where
  events : List Event
  results : List HistMsg
  term : Bool
  threw : Bool
deriving DecidableEq

/-- The `for (const toolCall of toolCalls)` loop (lines 147-170): each
call is executed, its result pushed on the local array, and on
`terminate` the final message is emitted (if the round had content) and
the loop breaks, skipping every later call in the batch. -/
def toolLoop (parse : String → Option Args)
    (dispatch : String → Args → Except String String)
    (hasContent : Bool) (content : String) : List AccTC → ToolLoopOut
  | [] => ⟨[], [], false, false⟩
  | tc :: rest =>
    match executeToolCall parse dispatch tc with
    | (evts, .error _) => ⟨evts, [], false, true⟩
    | (evts, .ok rv) =>
      let resMsg := HistMsg.tool tc.id (stringifyRes rv)
      if tc.name = "terminate" then
        ⟨evts ++ (if hasContent then [Event.message content] else []), [resMsg], true, false⟩
      else
        let out := toolLoop parse dispatch hasContent content rest
        ⟨evts ++ out.events, resMsg :: out.results, out.term, out.threw⟩

/-- State threaded through the streamed-chunk loop (lines 88-120):
events emitted so far, `currentMessage`, `hasContent`, and the
accumulated tool calls. -/
structure StreamOut where
  events : List Event
  content : String
  hasContent : Bool
  acc : List (Nat × AccTC)
deriving DecidableEq

/-- Processing of one streamed chunk (lines 93-119): a truthy content
delta is appended to `currentMessage` and emitted as a `thinking`
event, then the chunk\'s tool-call fragments are folded into the
accumulator. -/
def deltaStep (so : StreamOut) (d : Delta) : StreamOut :=
  let so1 := match d.content with
    | some s =>
      if s.isEmpty then so
      else ⟨so.events ++ [Event.thinking s], so.content ++ s, true, so.acc⟩
    | none => so
  { so1 with acc := d.tool_calls.foldl accStep so1.acc }

/-- The whole stream of one round. -/
def processDeltas (ds : List Delta) : StreamOut :=
  ds.foldl deltaStep ⟨[], "", false, []⟩

/-- One round\'s external input: the streamed deltas of the model call,
and whether `stopThoughtCycle` was invoked while this round ran (the
flag is then observed at the next loop-condition check). -/
structure Round where
  deltas : List Delta
  stopAfter : Bool
deriving DecidableEq

/-- The accumulated tool calls of a round, in JS array (ascending
stream index) order. -/
def roundToolCalls (r : Round) : List AccTC :=
  (processDeltas r.deltas).acc.map Prod.snd

/-- The accumulated `currentMessage` of a round. -/
def roundContent (r : Round) : String :=
  (processDeltas r.deltas).content

/-- Result of one round body (lines 68-186). -/
structure RoundOut where
  events : List Event
  hist : List HistMsg
  term : Bool
  isToolCallAfter : Bool
  threw : Bool
deriving DecidableEq

/-- One round body (lines 68-186): process the stream, push the
assistant message when the round had content or tool calls (content
`null` when empty, `tool_calls` present only when nonempty), then
either run the tool loop and push its collected results (lost if a
dispatch threw), or — with no tool calls — emit the content as a
`message` event and terminate if no round so far dispatched a tool.
`isToolCallAfter` is only read when the round returns normally, so the
tool branch may set it unconditionally. -/
def processRound (parse : String → Option Args)
    (dispatch : String → Args → Except String String)
    (isToolCall : Bool) (r : Round) : RoundOut :=
  let so := processDeltas r.deltas
  let toolCalls := so.acc.map Prod.snd
  let assistantMsgs : List HistMsg :=
    if so.hasContent || !toolCalls.isEmpty then
      [HistMsg.assistant (if so.content.isEmpty then none else some so.content)
        (if toolCalls.isEmpty then none else some toolCalls)]
    else []
  if toolCalls.isEmpty then
    { events := so.events ++ (if so.hasContent then [Event.message so.content] else []),
      hist := assistantMsgs,
      term := !isToolCall,
      isToolCallAfter := isToolCall,
      threw := false }
  else
    let tl := toolLoop parse dispatch so.hasContent so.content toolCalls
    { events := so.events ++ tl.events,
      hist := assistantMsgs ++ (if tl.threw then [] else tl.results),
      term := tl.term,
      isToolCallAfter := true,
      threw := tl.threw }

/-- Result of the while loop: events and history appended, the final
iteration counter, whether an exception propagated, and the value of
`this.shouldStop` when the loop exited (the post-loop code reads the
flag itself, not the exit reason). -/
structure CycleOut where
  events : List Event
  hist : List HistMsg
  iteration : Nat
  threw : Bool
  stopFlag : Bool
deriving DecidableEq

/-- The `while (!shouldTerminate && iteration < maxIterations &&
!this.shouldStop)` loop (line 67), with fuel `maxIterations -
iteration` so that running out of fuel is exactly `iteration`
reaching `maxIterations`.  `sched i` is the model\'s response for
iteration `i` (1-based).  A throw aborts the loop (the post-loop code
never runs); on a `terminate` or implicit-termination exit the stop
flag still holds whatever the last round\'s stop request set it to. -/
def loopGo (parse : String → Option Args)
    (dispatch : String → Args → Except String String) (sched : Nat → Round) :
    Nat → Nat → Bool → Bool → CycleOut
  | 0, it, _, stop => ⟨[], [], it, false, stop⟩
  | fuel + 1, it, itc, stop =>
    if stop then ⟨[], [], it, false, true⟩
    else
      let out := processRound parse dispatch itc (sched (it + 1))
      if out.threw then
        ⟨out.events, out.hist, it + 1, true, (sched (it + 1)).stopAfter⟩
      else if out.term then
        ⟨out.events, out.hist, it + 1, false, (sched (it + 1)).stopAfter⟩
      else
        let rest := loopGo parse dispatch sched fuel (it + 1) out.isToolCallAfter
          (sched (it + 1)).stopAfter
        ⟨out.events ++ rest.events, out.hist ++ rest.hist, rest.iteration, rest.threw,
          rest.stopFlag⟩

/-- The stop message emitted when `this.shouldStop` is set (line 192). -/
def stopMsg : String := "🛑 Thought cycle stopped by user."

/-- The maximum-iterations message (line 197). -/
def maxIterMsg : String :=
  "I\x27ve reached the maximum number of iterations. The task may need to be broken down further or requires manual intervention."

/-- Embedding of `AgentService.runThoughtCycle` (lines 58-200).
`preStop` is the value of `this.shouldStop` on entry (a stop request
delivered while the loop was idle); line 65 resets the flag to `false`
before the first round.  After the loop, when no exception propagated,
the flag takes priority over the iteration cap for the trailing
user-visible message. -/
def runThoughtCycle (parse : String → Option Args)
    (dispatch : String → Args → Except String String) (sched : Nat → Round)
    (maxIterations : Nat) (_preStop : Bool) : CycleOut :=
  let shouldStop := false
  let out := loopGo parse dispatch sched maxIterations 0 false shouldStop
  if out.threw then out
  else if out.stopFlag then
    { out with events := out.events ++ [Event.message stopMsg] }
  else if maxIterations ≤ out.iteration then
    { out with events := out.events ++ [Event.message maxIterMsg] }
  else out

/-- Embedding of `AgentService.processMessage` (lines 21-45): ensure a
session (`sessionOk` is the external outcome of `getOrCreateSession`),
push the user message, run the thought cycle, and catch any exception
as a single `error` event. -/
def processMessage (parse : String → Option Args)
    (dispatch : String → Args → Except String String) (sched : Nat → Round)
    (sessionOk : Bool) (userMsg : String) (maxIterations : Nat) (preStop : Bool) :
    List Event × List HistMsg :=
  if sessionOk then
    let out := runThoughtCycle parse dispatch sched maxIterations preStop
    (out.events ++ (if out.threw then [Event.error "Failed to process message"] else []),
      HistMsg.user userMsg :: out.hist)
  else ([Event.error "Failed to process message"], [])

/-! ## History sanitizer (`AgentService.sanitizeConversationHistory`) -/

/-- The ids referenced by assistant messages (`toolCallIds` set, lines
384-390); a JS `Set` of possibly-undefined ids. -/
def collectToolCallIds (h : List HistMsg) : List (Option String) :=
  h.flatMap fun m => match m with
    | .assistant _ (some tcs) => tcs.map AccTC.id
    | _ => []

/-- The truthy ids answered by tool messages (`toolMessages` set, lines
391-393). -/
def collectToolMsgIds (h : List HistMsg) : List String :=
  h.filterMap fun m => match m with
    | .tool (some s) _ => if s.isEmpty then none else some s
    | _ => none

/-- Membership of a possibly-absent id in the answered set
(`toolMessages.has(tc.id)`; the set holds only truthy strings). -/
def idAnswered (tms : List String) (id? : Option String) : Bool :=
  match id? with
  | some s => tms.contains s
  | none => false

/-- Embedding of `AgentService.sanitizeConversationHistory` (lines
379-408): both sets are collected from the full history, then one
filter pass keeps an assistant message with tool calls only when every
call id is answered, keeps a tool message with a truthy back-reference
only when some assistant references it, and keeps everything else. -/
def sanitize (h : List HistMsg) : List HistMsg :=
  let tms := collectToolMsgIds h
  let tcids := collectToolCallIds h
  h.filter fun m => match m with
    | .assistant _ (some tcs) => tcs.all fun tc => idAnswered tms tc.id
    | .tool (some s) _ => if s.isEmpty then true else tcids.contains (some s)
    | _ => true

/-! ## Concrete instantiations of the external effects (for closed runs) -/

/-- A concrete stand-in for `JSON.parse` agreeing with it on the inputs
used by the closed runs below: the payload `ok` parses (to an argument
record with no reason and no summary), anything else throws. -/
def parseTest : String → Option Args :=
  fun s => if s = "ok" then some {} else none

/-- A concrete sandbox dispatch that always succeeds. -/
def dispatchTest : String → Args → Except String String :=
  fun _ _ => .ok "res"

/-- A round whose stream carries one `shell_command` call and no content. -/
def roundTool1 : Round :=
  ⟨[⟨none, [⟨0, some "s1", some "shell_command", some "ok"⟩]⟩], false⟩

/-- A round whose batch is `terminate` followed by a `shell_command`. -/
def roundTermBatch : Round :=
  ⟨[⟨none, [⟨0, some "t1", some "terminate", some "ok"⟩,
            ⟨1, some "s2", some "shell_command", some "ok"⟩]⟩], false⟩

/-! ## Projections used to state the claims -/

/-- The originating call id of a tool-result message. -/
def histMsgToolId : HistMsg → Option String
  | .tool i _ => i
  | _ => none

/-- The prefix of a batch the tool loop actually answers: every call up
to and including the first `terminate`. -/
def takeThroughTerminate : List AccTC → List AccTC
  | [] => []
  | tc :: rest =>
    if tc.name = "terminate" then [tc] else tc :: takeThroughTerminate rest

/-! ## Claims C1 and C5 -/

/-- C5: the claim says every tool-level dispatch failure — including a
malformed argument payload — is captured into a tool-result error and
never propagates.  An unknown tool name is indeed captured (second
conjunct), but a non-parseable argument payload makes the catch block
itself throw while re-evaluating `JSON.parse` for the error event, so
the failure propagates out of `executeToolCall` with no event emitted
(first conjunct), aborting the round. -/
theorem C5_malformed_args_throw :
    (executeToolCall parseTest dispatchTest ⟨some "id1", "shell_command", "bad"⟩ =
      ([], .error "JSON.parse")) ∧
    (executeToolCall parseTest dispatchTest ⟨some "id2", "mystery_tool", "ok"⟩ =
      ([.toolCall "mystery_tool" .running, .toolCall "mystery_tool" .errored],
        .ok (.errRes "Unknown tool: mystery_tool" false))) := by
  constructor
  · rfl
  · rfl

/-- C1 counterexample: a round whose batch is `terminate` followed by a
`shell_command` appends the assistant message carrying both tool calls
but only one tool-result message — the call after `terminate` is
neither executed nor answered, so the claimed invariant is violated. -/
theorem C1_cex :
    (runThoughtCycle parseTest dispatchTest (fun _ => roundTermBatch) 10 false).hist =
      [HistMsg.assistant none (some [⟨some "t1", "terminate", "ok"⟩,
        ⟨some "s2", "shell_command", "ok"⟩]),
       HistMsg.tool (some "t1") "terminated::Task completed"] := by
  rfl

/-- C1 amended: in a round whose batch contains `terminate`, the tool
loop appends exactly one tool-result message for every call up to and
including the first `terminate`, in batch order and with matching call
ids; calls positioned after `terminate` receive no result.  (Hypothesis:
every argument payload in the batch parses, so no dispatch throws.) -/
theorem C1_results_prefix (parse : String → Option Args)
    (dispatch : String → Args → Except String String) (hc : Bool) (c : String)
    (tcs : List AccTC) (hparse : ∀ tc ∈ tcs, (parse tc.args).isSome = true) :
    (toolLoop parse dispatch hc c tcs).threw = false ∧
    (toolLoop parse dispatch hc c tcs).results.map histMsgToolId =
      (takeThroughTerminate tcs).map AccTC.id ∧
    (toolLoop parse dispatch hc c tcs).term =
      tcs.any fun tc => tc.name == "terminate" := by
  induction tcs with
  | nil => exact ⟨rfl, rfl, rfl⟩
  | cons tc rest ih =>
    have hp : (parse tc.args).isSome = true := hparse tc (List.mem_cons_self tc rest)
    obtain ⟨args, hargs⟩ := Option.isSome_iff_exists.mp hp
    have hok : ∃ evts v, executeToolCall parse dispatch tc = (evts, .ok v) := by
      simp only [executeToolCall, hargs]
      cases toolSwitch dispatch tc.name args with
      | ok r => exact ⟨_, _, rfl⟩
      | error e => exact ⟨_, _, rfl⟩
    obtain ⟨evts, v, hexec⟩ := hok
    by_cases hterm : tc.name = "terminate"
    · refine ⟨?_, ?_, ?_⟩ <;>
        simp [toolLoop, hexec, hterm, takeThroughTerminate, histMsgToolId, List.any_cons]
    · have ihr := ih fun t ht => hparse t (List.mem_cons_of_mem tc ht)
      refine ⟨?_, ?_, ?_⟩ <;>
        simp [toolLoop, hexec, hterm, takeThroughTerminate, histMsgToolId,
          List.any_cons, ihr.1, ihr.2.1, ihr.2.2]

/-- C1 witness: the amended theorem applied to the concrete
`terminate`-then-`shell_command` batch. -/
theorem C1_witness :
    (toolLoop parseTest dispatchTest false ""
        [⟨some "t1", "terminate", "ok"⟩, ⟨some "s2", "shell_command", "ok"⟩]).threw = false ∧
    (toolLoop parseTest dispatchTest false ""
        [⟨some "t1", "terminate", "ok"⟩, ⟨some "s2", "shell_command", "ok"⟩]).results.map
        histMsgToolId =
      (takeThroughTerminate
        [⟨some "t1", "terminate", "ok"⟩, ⟨some "s2", "shell_command", "ok"⟩]).map AccTC.id ∧
    (toolLoop parseTest dispatchTest false ""
        [⟨some "t1", "terminate", "ok"⟩, ⟨some "s2", "shell_command", "ok"⟩]).term =
      ([⟨some "t1", "terminate", "ok"⟩, ⟨some "s2", "shell_command", "ok"⟩] : List AccTC).any
        fun tc => tc.name == "terminate" :=
  C1_results_prefix parseTest dispatchTest false ""
    [⟨some "t1", "terminate", "ok"⟩, ⟨some "s2", "shell_command", "ok"⟩] (by decide)

/-! ## Claim C3 (history sanitizer) -/

/-- The sanitized-history property as the claim words it: every
assistant tool-call id answered within the history itself, and every
tool back-reference referenced within the history itself. -/
def sanitizedOK (h : List HistMsg) : Bool :=
  (h.all fun m => match m with
    | .assistant _ (some tcs) => tcs.all fun tc => idAnswered (collectToolMsgIds h) tc.id
    | _ => true) &&
  (h.all fun m => match m with
    | .tool (some s) _ => (collectToolCallIds h).contains (some s)
    | _ => true)

/-- The assistant-side half of the property alone. -/
def assistantDirOK (h : List HistMsg) : Bool :=
  h.all fun m => match m with
    | .assistant _ (some tcs) => tcs.all fun tc => idAnswered (collectToolMsgIds h) tc.id
    | _ => true

/-- A history with one assistant message referencing calls `x` and `y`
but only `x` answered. -/
def histCex : List HistMsg :=
  [.assistant none (some [⟨some "x", "shell_command", "ok"⟩,
                          ⟨some "y", "shell_command", "ok"⟩]),
   .tool (some "x") "r"]

theorem mem_collectToolMsgIds (h : List HistMsg) (s : String) :
    s ∈ collectToolMsgIds h ↔
      (∃ c, HistMsg.tool (some s) c ∈ h) ∧ s.isEmpty = false := by
  simp only [collectToolMsgIds, List.mem_filterMap]
  constructor
  · rintro ⟨m, hm, hf⟩
    match m with
    | .user c => simp at hf
    | .assistant c tcs? => simp at hf
    | .tool none c => simp at hf
    | .tool (some t) c =>
      by_cases he : t.isEmpty
      · simp [he] at hf
      · simp only [he, Bool.false_eq_true, if_false, Option.some.injEq] at hf
        subst hf
        exact ⟨⟨c, hm⟩, by simpa using he⟩
  · rintro ⟨⟨c, hc⟩, hne⟩
    exact ⟨.tool (some s) c, hc, by simp [hne]⟩

theorem mem_collectToolCallIds (h : List HistMsg) (c : Option String)
    (tcs : List AccTC) (tc : AccTC)
    (hm : HistMsg.assistant c (some tcs) ∈ h) (htc : tc ∈ tcs) :
    tc.id ∈ collectToolCallIds h := by
  simp only [collectToolCallIds, List.mem_flatMap]
  exact ⟨.assistant c (some tcs), hm, by simpa using List.mem_map_of_mem AccTC.id htc⟩

/-- C3 counterexample: on the two-message history above, one sanitizer
pass drops the assistant message (its id `y` is unanswered) but keeps
the tool message for `x`, whose back-reference is then no longer
referenced by any assistant message of the result; a second pass
removes it, so sanitizing is not idempotent either. -/
theorem C3_cex :
    sanitize histCex = [HistMsg.tool (some "x") "r"] ∧
    sanitizedOK (sanitize histCex) = false ∧
    sanitize (sanitize histCex) ≠ sanitize histCex := by
  refine ⟨rfl, rfl, ?_⟩
  decide

/-- C3 amended: after one sanitizer pass, every surviving assistant
message has all of its tool-call ids answered by tool messages that
also survive the pass (the assistant-side half of the claimed
property).  The tool-side half and idempotence fail, as the
counterexample shows: a surviving tool message can be left
unreferenced when its referencing assistant message was dropped over a
different dangling id. -/
theorem C3_assistant_direction (h : List HistMsg) :
    assistantDirOK (sanitize h) = true := by
  rw [assistantDirOK, List.all_eq_true]
  intro m hm
  have hm' := hm
  simp only [sanitize, List.mem_filter] at hm'
  obtain ⟨hmh, hpred⟩ := hm'
  match m with
  | .user c => rfl
  | .tool i c => rfl
  | .assistant c none => rfl
  | .assistant c (some tcs) =>
    simp only [List.all_eq_true] at hpred ⊢
    intro tc htc
    have hans := hpred tc htc
    cases hid : tc.id with
    | none => rw [hid] at hans; simp [idAnswered] at hans
    | some s =>
      rw [hid] at hans
      simp only [idAnswered, List.elem_iff] at hans ⊢
      rw [mem_collectToolMsgIds] at hans
      obtain ⟨⟨tcont, htool⟩, hne⟩ := hans
      rw [mem_collectToolMsgIds]
      refine ⟨⟨tcont, ?_⟩, hne⟩
      simp only [sanitize, List.mem_filter]
      refine ⟨htool, ?_⟩
      have hrefd : (some s) ∈ collectToolCallIds h := by
        have := mem_collectToolCallIds h c tcs tc hmh htc
        rwa [hid] at this
      simp only [hne, Bool.false_eq_true, if_false]
      exact List.elem_iff.mpr hrefd

/-! ## Claim C4 (per-turn event trace shape) -/

/-- Event classifiers. -/
def isThinkingEvt : Event → Bool
  | .thinking _ => true
  | _ => false

def isToolCallEvt : Event → Bool
  | .toolCall _ _ => true
  | _ => false

def isMessageEvt : Event → Bool
  | .message _ => true
  | _ => false

/-- The per-turn shape the claim asserts: zero or more
`thinking`/`tool_call` events followed by at most one `message` or
`error`. -/
def turnShapeClaim (l : List Event) : Bool :=
  let rest := l.dropWhile fun e => isThinkingEvt e || isToolCallEvt e
  decide (rest.length ≤ 1) && rest.all fun e => isMessageEvt e || (match e with
    | .error _ => true
    | _ => false)

/-- The block of events one round with accumulated content `c` can
emit: thinking events, then tool-call events, then at most one
`message` carrying `c`. -/
def IsRoundBlockOf (c : String) (l : List Event) : Prop :=
  ∃ a b m, l = a ++ b ++ m ∧ (∀ e ∈ a, isThinkingEvt e = true) ∧
    (∀ e ∈ b, isToolCallEvt e = true) ∧ (m = [] ∨ m = [Event.message c])

/-- What can follow the round blocks of a turn: nothing, one trailing
`message` (stop or iteration cap), or one trailing `error`. -/
def IsTrailer (l : List Event) : Prop :=
  l = [] ∨ (∃ s, l = [Event.message s]) ∨ (∃ s, l = [Event.error s])

theorem executeToolCall_events (parse : String → Option Args)
    (dispatch : String → Args → Except String String) (tc : AccTC) :
    ∀ e ∈ (executeToolCall parse dispatch tc).1, isToolCallEvt e = true := by
  intro e he
  simp only [executeToolCall] at he
  cases hp : parse tc.args with
  | none => simp [hp] at he
  | some args =>
    simp only [hp] at he
    cases hsw : toolSwitch dispatch tc.name args with
    | ok r =>
      simp only [hsw, List.mem_cons, List.not_mem_nil, or_false] at he
      rcases he with rfl | rfl <;> rfl
    | error e2 =>
      simp only [hsw, List.mem_cons, List.not_mem_nil, or_false] at he
      rcases he with rfl | rfl <;> rfl

theorem toolLoop_events_shape (parse : String → Option Args)
    (dispatch : String → Args → Except String String) (hc : Bool) (c : String)
    (tcs : List AccTC) :
    ∃ b m, (toolLoop parse dispatch hc c tcs).events = b ++ m ∧
      (∀ e ∈ b, isToolCallEvt e = true) ∧ (m = [] ∨ m = [Event.message c]) := by
  induction tcs with
  | nil => exact ⟨[], [], rfl, by simp, Or.inl rfl⟩
  | cons tc rest ih =>
    have hevts := executeToolCall_events parse dispatch tc
    cases hexec : executeToolCall parse dispatch tc with
    | mk evts res =>
      rw [hexec] at hevts
      cases res with
      | error e2 =>
        exact ⟨evts, [], by simp [toolLoop, hexec], hevts, Or.inl rfl⟩
      | ok rv =>
        by_cases hterm : tc.name = "terminate"
        · by_cases hhc : hc
          · exact ⟨evts, [Event.message c], by simp [toolLoop, hexec, hterm, hhc],
              hevts, Or.inr rfl⟩
          · exact ⟨evts, [], by simp [toolLoop, hexec, hterm, hhc], hevts, Or.inl rfl⟩
        · obtain ⟨b, m, hbm, hball, hm⟩ := ih
          refine ⟨evts ++ b, m, ?_, ?_, hm⟩
          · simp [toolLoop, hexec, hterm, hbm]
          · intro e he
            rcases List.mem_append.mp he with h | h
            · exact hevts e h
            · exact hball e h

theorem foldl_deltaStep_events (ds : List Delta) :
    ∀ (so : StreamOut) (e : Event), e ∈ (ds.foldl deltaStep so).events →
      e ∈ so.events ∨ isThinkingEvt e = true := by
  induction ds with
  | nil => intro so e he; exact Or.inl he
  | cons d ds ih =>
    intro so e he
    rcases ih (deltaStep so d) e he with h | h
    · simp only [deltaStep] at h
      cases hc : d.content with
      | none => simp only [hc] at h; exact Or.inl h
      | some s =>
        simp only [hc] at h
        by_cases hemp : s.isEmpty
        · simp only [hemp, if_true] at h; exact Or.inl h
        · simp only [hemp, Bool.false_eq_true, if_false, List.mem_append,
            List.mem_singleton] at h
          rcases h with h | rfl
          · exact Or.inl h
          · exact Or.inr rfl
    · exact Or.inr h

theorem processDeltas_events (ds : List Delta) :
    ∀ e ∈ (processDeltas ds).events, isThinkingEvt e = true := by
  intro e he
  rcases foldl_deltaStep_events ds ⟨[], "", false, []⟩ e he with h | h
  · simp at h
  · exact h

theorem processRound_events_block (parse : String → Option Args)
    (dispatch : String → Args → Except String String) (itc : Bool) (r : Round) :
    IsRoundBlockOf (roundContent r) (processRound parse dispatch itc r).events := by
  have hthink := processDeltas_events r.deltas
  simp only [processRound]
  by_cases hempty : ((processDeltas r.deltas).acc.map Prod.snd).isEmpty
  · simp only [hempty, if_true]
    by_cases hhc : (processDeltas r.deltas).hasContent
    · exact ⟨(processDeltas r.deltas).events, [], [Event.message (processDeltas r.deltas).content],
        by simp [hhc], hthink, by simp, Or.inr rfl⟩
    · exact ⟨(processDeltas r.deltas).events, [], [],
        by simp [hhc], hthink, by simp, Or.inl rfl⟩
  · simp only [hempty, Bool.false_eq_true, if_false]
    obtain ⟨b, m, hbm, hball, hm⟩ := toolLoop_events_shape parse dispatch
      (processDeltas r.deltas).hasContent (processDeltas r.deltas).content
      ((processDeltas r.deltas).acc.map Prod.snd)
    exact ⟨(processDeltas r.deltas).events, b, m, by simp [hbm, List.append_assoc],
      hthink, hball, hm⟩

theorem loopGo_events_blocks (parse : String → Option Args)
    (dispatch : String → Args → Except String String) (sched : Nat → Round) :
    ∀ (fuel it : Nat) (itc stop : Bool),
      ∃ blocks : List (List Event),
        (loopGo parse dispatch sched fuel it itc stop).events = blocks.flatten ∧
        ∀ b ∈ blocks, ∃ j, it < j ∧ j ≤ it + fuel ∧
          IsRoundBlockOf (roundContent (sched j)) b := by
  intro fuel
  induction fuel with
  | zero => intro it itc stop; exact ⟨[], rfl, by simp⟩
  | succ f ih =>
    intro it itc stop
    by_cases hstop : stop
    · exact ⟨[], by simp [loopGo, hstop], by simp⟩
    · simp only [loopGo, hstop, Bool.false_eq_true, if_false]
      have hblock := processRound_events_block parse dispatch itc (sched (it + 1))
      by_cases hthrew : (processRound parse dispatch itc (sched (it + 1))).threw
      · refine ⟨[(processRound parse dispatch itc (sched (it + 1))).events],
          by simp [hthrew], ?_⟩
        intro b hb
        rw [List.mem_singleton] at hb
        subst hb
        exact ⟨it + 1, Nat.lt_succ_self it, by omega, hblock⟩
      · by_cases hterm : (processRound parse dispatch itc (sched (it + 1))).term
        · refine ⟨[(processRound parse dispatch itc (sched (it + 1))).events],
            by simp [hthrew, hterm], ?_⟩
          intro b hb
          rw [List.mem_singleton] at hb
          subst hb
          exact ⟨it + 1, Nat.lt_succ_self it, by omega, hblock⟩
        · obtain ⟨blocks, hev, hb⟩ := ih (it + 1)
            (processRound parse dispatch itc (sched (it + 1))).isToolCallAfter
            (sched (it + 1)).stopAfter
          refine ⟨(processRound parse dispatch itc (sched (it + 1))).events :: blocks,
            by simp [hthrew, hterm, hev], ?_⟩
          intro b hbmem
          rcases List.mem_cons.mp hbmem with rfl | hmem
          · exact ⟨it + 1, Nat.lt_succ_self it, by omega, hblock⟩
          · obtain ⟨j, hj1, hj2, hj3⟩ := hb b hmem
            exact ⟨j, by omega, by omega, hj3⟩

/-- C4 amended: a turn\'s event stream is a concatenation of per-round
blocks — each block zero or more `thinking` events, then zero or more
`tool_call` events, then at most one `message` carrying that round\'s
accumulated content — followed by at most one trailing `message` (stop
or iteration cap) or one trailing `error`.  The claimed shape (at most
one `message` per turn, none followed by further events) fails because
every content-only round after a tool round emits its own `message`
and the loop continues. -/
theorem C4_trace_structure (parse : String → Option Args)
    (dispatch : String → Args → Except String String) (sched : Nat → Round)
    (sessionOk : Bool) (userMsg : String) (maxIterations : Nat) (p : Bool) :
    ∃ (blocks : List (List Event)) (trailer : List Event),
      (processMessage parse dispatch sched sessionOk userMsg maxIterations p).1 =
        blocks.flatten ++ trailer ∧
      (∀ b ∈ blocks, ∃ j, 1 ≤ j ∧ j ≤ maxIterations ∧
        IsRoundBlockOf (roundContent (sched j)) b) ∧
      IsTrailer trailer := by
  by_cases hsession : sessionOk
  · obtain ⟨blocks, hev, hb⟩ := loopGo_events_blocks parse dispatch sched maxIterations 0
      false false
    have hblocks : ∀ b ∈ blocks, ∃ j, 1 ≤ j ∧ j ≤ maxIterations ∧
        IsRoundBlockOf (roundContent (sched j)) b := by
      intro b hbm
      obtain ⟨j, hj1, hj2, hj3⟩ := hb b hbm
      exact ⟨j, by omega, by omega, hj3⟩
    set out := loopGo parse dispatch sched maxIterations 0 false false with hout
    by_cases hthrew : out.threw
    · refine ⟨blocks, [Event.error "Failed to process message"], ?_, hblocks, ?_⟩
      · simp [processMessage, hsession, runThoughtCycle, hthrew, ← hout, hev]
      · exact Or.inr (Or.inr ⟨_, rfl⟩)
    · by_cases hflag : out.stopFlag
      · refine ⟨blocks, [Event.message stopMsg], ?_, hblocks, ?_⟩
        · simp [processMessage, hsession, runThoughtCycle, hthrew, hflag, ← hout, hev]
        · exact Or.inr (Or.inl ⟨_, rfl⟩)
      · by_cases hmax : maxIterations ≤ out.iteration
        · refine ⟨blocks, [Event.message maxIterMsg], ?_, hblocks, ?_⟩
          · simp [processMessage, hsession, runThoughtCycle, hthrew, hflag, hmax, ← hout, hev]
          · exact Or.inr (Or.inl ⟨_, rfl⟩)
        · refine ⟨blocks, [], ?_, hblocks, Or.inl rfl⟩
          simp [processMessage, hsession, runThoughtCycle, hthrew, hflag, hmax, ← hout, hev]
  · exact ⟨[], [Event.error "Failed to process message"],
      by simp [processMessage, hsession], by simp, Or.inr (Or.inr ⟨_, rfl⟩)⟩

/-- A round streaming only the content `alpha`. -/
def roundContentA : Round := ⟨[⟨some "alpha", []⟩], false⟩

/-- A round streaming only the content `beta`. -/
def roundContentB : Round := ⟨[⟨some "beta", []⟩], false⟩

/-- A schedule with one tool round followed by content-only rounds. -/
def schedC4 : Nat → Round :=
  fun n => if n = 1 then roundTool1 else if n = 2 then roundContentA else roundContentB

/-- C4 counterexample: after a tool round, each content-only round
emits its own `message` event and the loop continues, so one turn emits
three `message` events with `thinking` events between them — the
claimed shape (at most one terminal `message`, nothing after it) is
violated. -/
theorem C4_cex :
    turnShapeClaim (processMessage parseTest dispatchTest schedC4 true "hi" 3 false).1 =
      false ∧
    ((processMessage parseTest dispatchTest schedC4 true "hi" 3 false).1.filter
      isMessageEvt).length = 3 := by
  exact ⟨rfl, rfl⟩

/-! ## Claim C9 (iteration cap) -/

theorem message_mem_loopGo (parse : String → Option Args)
    (dispatch : String → Args → Except String String) (sched : Nat → Round)
    (fuel it : Nat) (itc stop : Bool) (s : String)
    (hmem : Event.message s ∈ (loopGo parse dispatch sched fuel it itc stop).events) :
    ∃ j, it < j ∧ j ≤ it + fuel ∧ s = roundContent (sched j) := by
  obtain ⟨blocks, hev, hb⟩ := loopGo_events_blocks parse dispatch sched fuel it itc stop
  rw [hev, List.mem_flatten] at hmem
  obtain ⟨b, hbmem, hsb⟩ := hmem
  obtain ⟨j, hj1, hj2, a, bb, m, heq, ha, hbb, hm⟩ := hb b hbmem
  subst heq
  rcases List.mem_append.mp hsb with h | h
  rcases List.mem_append.mp h with h2 | h2
  · have := ha _ h2
    simp [isThinkingEvt] at this
  · have := hbb _ h2
    simp [isToolCallEvt] at this
  · rcases hm with rfl | rfl
    · simp at h
    · rw [List.mem_singleton] at h
      cases h
      exact ⟨j, hj1, hj2, rfl⟩

/-- C9: when the loop runs its full iteration budget without a stop
signal and without an exception (in particular with no `terminate`
exit before the cap), the turn ends with exactly one trailing
maximum-iterations `message` event appended to the loop\'s own events,
and that message occurs nowhere else in the turn provided no round
streamed the identical text. -/
theorem C9_max_iterations (parse : String → Option Args)
    (dispatch : String → Args → Except String String) (sched : Nat → Round)
    (maxIterations : Nat) (p : Bool)
    (hthrew : (loopGo parse dispatch sched maxIterations 0 false false).threw = false)
    (hstop : (loopGo parse dispatch sched maxIterations 0 false false).stopFlag = false)
    (hit : maxIterations ≤ (loopGo parse dispatch sched maxIterations 0 false false).iteration)
    (hcontent : ∀ i < maxIterations, roundContent (sched (i + 1)) ≠ maxIterMsg) :
    (runThoughtCycle parse dispatch sched maxIterations p).events =
      (loopGo parse dispatch sched maxIterations 0 false false).events ++
        [Event.message maxIterMsg] ∧
    Event.message maxIterMsg ∉
      (loopGo parse dispatch sched maxIterations 0 false false).events := by
  constructor
  · simp [runThoughtCycle, hthrew, hstop, hit]
  · intro hmem
    obtain ⟨j, hj1, hj2, hj3⟩ := message_mem_loopGo parse dispatch sched maxIterations 0
      false false maxIterMsg hmem
    exact hcontent (j - 1) (by omega) (by rw [show j - 1 + 1 = j by omega]; exact hj3.symm)

/-- A schedule of identical tool rounds (never terminates). -/
def schedW : Nat → Round := fun _ => roundTool1

/-- C9 witness: the theorem applied to three tool-only rounds with an
iteration cap of three. -/
theorem C9_witness :
    (runThoughtCycle parseTest dispatchTest schedW 3 false).events =
      (loopGo parseTest dispatchTest schedW 3 0 false false).events ++
        [Event.message maxIterMsg] ∧
    Event.message maxIterMsg ∉
      (loopGo parseTest dispatchTest schedW 3 0 false false).events :=
  C9_max_iterations parseTest dispatchTest schedW 3 false (by decide) (by decide)
    (by decide) (by decide)

/-! ## Claim C10 (stop flag reset and round-boundary sampling) -/

theorem loopGo_extend (parse : String → Option Args)
    (dispatch : String → Args → Except String String) (sched : Nat → Round) :
    ∀ (f1 f2 it : Nat) (itc stop : Bool), f1 ≤ f2 →
      (loopGo parse dispatch sched f1 it itc stop).stopFlag = true →
      loopGo parse dispatch sched f2 it itc stop =
        loopGo parse dispatch sched f1 it itc stop := by
  intro f1
  induction f1 with
  | zero =>
    intro f2 it itc stop h12 hstop
    simp only [loopGo] at hstop
    cases f2 with
    | zero => rfl
    | succ g => simp [loopGo, hstop]
  | succ g ih =>
    intro f2 it itc stop h12 hstop
    cases f2 with
    | zero => omega
    | succ h =>
      by_cases hs : stop
      · simp [loopGo, hs]
      · simp only [loopGo, hs, Bool.false_eq_true, if_false] at hstop ⊢
        by_cases hthrew : (processRound parse dispatch itc (sched (it + 1))).threw
        · simp [hthrew]
        · by_cases hterm : (processRound parse dispatch itc (sched (it + 1))).term
          · simp [hthrew, hterm]
          · simp only [hthrew, hterm, Bool.false_eq_true, if_false] at hstop ⊢
            have hrec := ih h (it + 1)
              (processRound parse dispatch itc (sched (it + 1))).isToolCallAfter
              (sched (it + 1)).stopAfter (by omega) hstop
            rw [hrec]

/-- C10: (1) the loop resets the stop flag at the start of every turn,
so the turn\'s outcome is independent of any stop request delivered
while the loop was idle; and (2) the flag is sampled only in the loop
condition at the top of a round: whenever a `k`-round run ends with the
flag raised (and no exception), the full turn\'s event stream is exactly
those `k` complete rounds\' events followed by the single stop message —
no round is truncated mid-stream or mid-dispatch. -/
theorem C10_stop_reset_and_boundary (parse : String → Option Args)
    (dispatch : String → Args → Except String String) (sched : Nat → Round)
    (maxIterations k : Nat) :
    (∀ p q : Bool, runThoughtCycle parse dispatch sched maxIterations p =
      runThoughtCycle parse dispatch sched maxIterations q) ∧
    (k ≤ maxIterations →
      (loopGo parse dispatch sched k 0 false false).stopFlag = true →
      (loopGo parse dispatch sched k 0 false false).threw = false →
      ∀ p : Bool, (runThoughtCycle parse dispatch sched maxIterations p).events =
        (loopGo parse dispatch sched k 0 false false).events ++
          [Event.message stopMsg]) := by
  constructor
  · intro p q
    rfl
  · intro hk hflag hthrew p
    have hext := loopGo_extend parse dispatch sched k maxIterations 0 false false hk hflag
    simp [runThoughtCycle, hext, hthrew, hflag]

/-- A first round that is a tool round with a stop request arriving
while it runs. -/
def roundTool1Stop : Round :=
  ⟨[⟨none, [⟨0, some "s1", some "shell_command", some "ok"⟩]⟩], true⟩

/-- A schedule whose first round carries a concurrent stop request. -/
def schedStopW : Nat → Round := fun n => if n = 1 then roundTool1Stop else roundTool1

/-- C10 witness: the boundary half applied with one full round and a
stop request during it, under a pre-raised idle-time flag. -/
theorem C10_witness :
    (runThoughtCycle parseTest dispatchTest schedStopW 10 true).events =
      (loopGo parseTest dispatchTest schedStopW 1 0 false false).events ++
        [Event.message stopMsg] :=
  (C10_stop_reset_and_boundary parseTest dispatchTest schedStopW 10 1).2
    (by decide) (by decide) (by decide) true

/-! ## Claims C2, C6, C8 -/

/-- C2: the claim says a sandbox operation failing with a session
timeout is retried exactly once after `resumeSession`, and a timeout on
the retried attempt propagates with no further retry.  The code instead
recurses on every timeout: with attempts timing out twice before
succeeding, `executeShellCommand` performs three attempts (two retries),
and under persistent timeouts it never returns at all, for any amount of
fuel.  This contradicts the source's own comment `Retry the operation
once` at the recursion site. -/
theorem C2_retry_unbounded :
    (executeShellCommandModel
        (fun k => if 2 ≤ k then .ok ⟨"done", "", 0⟩
                  else .error "Command timed out after 30 seconds")
        10 0 = some (3, .ok ⟨"done", "", 0⟩)) ∧
    (∀ fuel, executeShellCommandModel
        (fun _ => .error "session timed out") fuel 0 = none) := by
  constructor
  · rfl
  · intro fuel
    exact executeShellCommandModel_allTimeout _ (by decide) fuel 0

/-- C6 counterexample: with a held session id, a failing reconnect and a
failing fallback `createSession`, `resumeSession` surfaces a hard
failure (the create error) to its caller, contradicting the claim that
it never does. -/
theorem C6_cex :
    resumeSession (fun _ => .error "reconnect failed") (.error "create failed")
      ⟨some ⟨"sb0"⟩, some "sess0"⟩ = .error "create failed" := rfl

/-- C6 amended: with no truthy prior session id, `resumeSession`
returns absent and leaves the state unchanged; with a held id whose
reconnect fails and whose fallback creation succeeds, it returns the
newly created session id; and whenever the fallback creation outcome is
a success, `resumeSession` never surfaces a hard failure — only a
failure of the fallback `createSession` itself can propagate. -/
theorem C6_resume_amended (rc : String → Except String Sandbox)
    (co : Except String Sandbox) (st : E2BState) :
    (truthyOpt st.sessionId = false → resumeSession rc co st = .ok (st, none)) ∧
    (∀ sid e sb, st.sessionId = some sid → sid.isEmpty = false →
      rc sid = .error e → co = .ok sb →
      resumeSession rc co st = .ok (⟨some sb, some sb.id⟩, some sb.id)) ∧
    (∀ sb, co = .ok sb → ∃ out, resumeSession rc co st = .ok out) := by
  refine ⟨?_, ?_, ?_⟩
  · intro h
    match hs : st.sessionId with
    | none => simp [resumeSession, hs]
    | some sid =>
      rw [hs] at h
      simp only [truthyOpt, Bool.not_eq_false'] at h
      simp [resumeSession, hs, h]
  · intro sid e sb hs hemp hrc hco
    simp [resumeSession, hs, hemp, hrc, hco, createSession]
  · intro sb hco
    match hs : st.sessionId with
    | none => exact ⟨(st, none), by simp [resumeSession, hs]⟩
    | some sid =>
      by_cases hemp : sid.isEmpty
      · exact ⟨(st, none), by simp [resumeSession, hs, hemp]⟩
      · match hrc : rc sid with
        | .ok sb' =>
          exact ⟨({ st with sandbox := some sb' }, some sid),
            by simp [resumeSession, hs, hemp, hrc]⟩
        | .error e =>
          exact ⟨(⟨some sb, some sb.id⟩, some sb.id),
            by simp [resumeSession, hs, hemp, hrc, hco, createSession]⟩

/-- C6 witness: the amended theorem applied at a concrete state with a
held id, failing reconnect and successful fallback creation. -/
theorem C6_witness :
    resumeSession (fun _ => .error "boom") (.ok ⟨"newId"⟩) ⟨none, some "oldId"⟩ =
      .ok (⟨some ⟨"newId"⟩, some "newId"⟩, some "newId") :=
  (C6_resume_amended (fun _ => .error "boom") (.ok ⟨"newId"⟩)
    ⟨none, some "oldId"⟩).2.1 "oldId" "boom" ⟨"newId"⟩ rfl rfl rfl rfl

/-- C8: `performFileOperation`'s path rewrite is exactly the rewrite
the spec describes: a leading `./` is replaced by `/home/user/`, a
leading `../` is replaced by `/home/user/`, any other relative path is
prefixed with `/home/user/`, and absolute paths pass through; in
particular `../foo.txt` is rewritten to `/home/user/foo.txt`. -/
theorem C8_normalizePath_exact :
    (∀ path, normalizePath path = normalizePathSpec path) ∧
    normalizePath "../foo.txt" = "/home/user/foo.txt" := by
  constructor
  · intro path
    simp only [normalizePath, normalizePathSpec, strStartsWith, replaceFirst]
    by_cases h1 : "./".data.isPrefixOf path.data
    · simp only [h1, if_true]
      rw [listReplaceFirst_of_isPrefixOf _ _ _ h1]
      rfl
    · simp only [h1, Bool.false_eq_true, if_false]
      by_cases h2 : "../".data.isPrefixOf path.data
      · simp only [h2, if_true]
        rw [listReplaceFirst_of_isPrefixOf _ _ _ h2]
        rfl
      · simp only [h2, Bool.false_eq_true, if_false]
  · rfl

end Manus
